import Mathlib

/-!
Shallow embedding of the `mass-raytrace` renderer core, translated from the
Rust sources (`src/math.rs`, `src/geom.rs`, `src/material.rs`, `src/world.rs`,
`src/main.rs`).

Modelling conventions.
* The source computes with `f32`.  The embedding uses exact rationals `ℚ` for
  finite values.  Where the source's IEEE-754 semantics of `±∞`/`NaN` is load
  bearing (divisions by a zero slab denominator in `BoundingBox::hit`, the
  `-1/density` field of `Volume`, the `f32::INFINITY` traversal bound), values
  live in `ERat`, rationals extended with `pinf`, `ninf` and `nan`, whose
  `min`/`max`/`<` mirror Rust's `f32::min`/`f32::max` (NaN is dropped) and the
  IEEE comparisons (any comparison with NaN is false).
* `f32::sqrt` is modelled by `Rat.sqrt`, which is exact on perfect squares;
  every concrete evaluation below only takes square roots of perfect squares.
* Calls to the global RNG (`fastrand`) are modelled by explicit parameters:
  the axis stream of the BVH builder, the uniform draw of `Mix`, and the
  logarithm `ln(u)` of the uniform draw in `Volume::intersect`.
* Decimal literals of the source (`0.0001`, `0.000001`) are modelled by the
  corresponding exact rationals.
-/

namespace Mass

/-- Componentwise rational 3-vector, translating `math::generic::V3<f32>`. -/
structure V3Q where
  x : ℚ
  y : ℚ
  z : ℚ
deriving DecidableEq, Repr

namespace V3Q

/-- `V3::new`. -/
def mk3 (x y z : ℚ) : V3Q := ⟨x, y, z⟩

/-- `V3::zero`. -/
def zero : V3Q := ⟨0, 0, 0⟩

/-- `V3::fill`. -/
def fill (v : ℚ) : V3Q := ⟨v, v, v⟩

/-- Componentwise addition (`impl Add for V3`). -/
def add (a b : V3Q) : V3Q := ⟨a.x + b.x, a.y + b.y, a.z + b.z⟩

/-- Componentwise subtraction (`impl Sub for V3`). -/
def sub (a b : V3Q) : V3Q := ⟨a.x - b.x, a.y - b.y, a.z - b.z⟩

/-- Componentwise product (`impl Mul for V3`). -/
def cmul (a b : V3Q) : V3Q := ⟨a.x * b.x, a.y * b.y, a.z * b.z⟩

/-- Scalar product (`impl Mul<f32> for V3`). -/
def smul (a : V3Q) (k : ℚ) : V3Q := ⟨a.x * k, a.y * k, a.z * k⟩

/-- Scalar division (`impl Div<f32> for V3`). -/
def sdiv (a : V3Q) (k : ℚ) : V3Q := ⟨a.x / k, a.y / k, a.z / k⟩

/-- Negation (`impl Neg for V3`). -/
def neg (a : V3Q) : V3Q := ⟨-a.x, -a.y, -a.z⟩

/-- `V3::dot`. -/
def dot (a b : V3Q) : ℚ := a.x * b.x + a.y * b.y + a.z * b.z

/-- `V3::cross`. -/
def cross (a b : V3Q) : V3Q :=
  ⟨a.y * b.z - a.z * b.y, a.z * b.x - a.x * b.z, a.x * b.y - a.y * b.x⟩

/-- `V3::length_squared`. -/
def lengthSquared (a : V3Q) : ℚ := a.x * a.x + a.y * a.y + a.z * a.z

/-- `V3::length`; `f32::sqrt` is modelled by `Rat.sqrt` (exact on squares). -/
def length (a : V3Q) : ℚ := Rat.sqrt a.lengthSquared

/-- Componentwise `V3::min` (`f32::min` on rationals; NaN does not arise). -/
def vmin (a b : V3Q) : V3Q := ⟨min a.x b.x, min a.y b.y, min a.z b.z⟩

/-- Componentwise `V3::max`. -/
def vmax (a b : V3Q) : V3Q := ⟨max a.x b.x, max a.y b.y, max a.z b.z⟩

/-- Componentwise absolute value (`V3::abs`). -/
def vabs (a : V3Q) : V3Q := ⟨|a.x|, |a.y|, |a.z|⟩

/-- `V3::near_zero` from `src/math.rs` lines 158-162: every component is
compared against `3.0 * f32::EPSILON`, and `f32::EPSILON = 2⁻²³`. -/
def nearZero (a : V3Q) : Bool :=
  |a.x| ≤ 3 / 8388608 && |a.y| ≤ 3 / 8388608 && |a.z| ≤ 3 / 8388608

end V3Q

/-- Rational 2-vector, translating `math::V2<f32>` (used for UVs). -/
structure V2Q where
  x : ℚ
  y : ℚ
deriving DecidableEq, Repr

namespace V2Q

/-- Componentwise addition. -/
def add (a b : V2Q) : V2Q := ⟨a.x + b.x, a.y + b.y⟩

/-- Scalar product. -/
def smul (a : V2Q) (k : ℚ) : V2Q := ⟨a.x * k, a.y * k⟩

end V2Q

/-- An `f32` value that may be infinite or NaN.  Finite values are exact
rationals.  Used where the renderer relies on IEEE special values. -/
inductive ERat where
  | fin (q : ℚ)
  | pinf
  | ninf
  | nan
deriving DecidableEq, Repr

namespace ERat

/-- IEEE division of finite `a` by finite `b`, as an `ERat`: division by zero
produces a signed infinity, and `0/0` produces NaN.  (`-0.0` denominators do
not exist in the rational embedding.) -/
def dq (a b : ℚ) : ERat :=
  if b ≠ 0 then fin (a / b)
  else if a > 0 then pinf
  else if a < 0 then ninf
  else nan

/-- Rust's `f32::min`: if one argument is NaN the other is returned. -/
def rmin : ERat → ERat → ERat
  | nan, b => b
  | a, nan => a
  | ninf, _ => ninf
  | _, ninf => ninf
  | pinf, b => b
  | a, pinf => a
  | fin a, fin b => fin (min a b)

/-- Rust's `f32::max`: if one argument is NaN the other is returned. -/
def rmax : ERat → ERat → ERat
  | nan, b => b
  | a, nan => a
  | pinf, _ => pinf
  | _, pinf => pinf
  | ninf, b => b
  | a, ninf => a
  | fin a, fin b => fin (max a b)

/-- IEEE strict `<` as a boolean: any comparison involving NaN is false. -/
def blt : ERat → ERat → Bool
  | nan, _ => false
  | _, nan => false
  | ninf, ninf => false
  | ninf, _ => true
  | _, ninf => false
  | pinf, _ => false
  | _, pinf => true
  | fin a, fin b => a < b

/-- IEEE `≤` as a boolean: any comparison involving NaN is false. -/
def ble : ERat → ERat → Bool
  | nan, _ => false
  | _, nan => false
  | ninf, _ => true
  | _, ninf => false
  | _, pinf => true
  | pinf, _ => false
  | fin a, fin b => a ≤ b

/-- IEEE multiplication restricted to the shapes the embedding meets:
`±∞ · ±∞`, finite times `±∞` (sign of the finite factor decides; zero times
an infinity is NaN), and finite products. -/
def mul : ERat → ERat → ERat
  | nan, _ => nan
  | _, nan => nan
  | pinf, pinf => pinf
  | pinf, ninf => ninf
  | ninf, pinf => ninf
  | ninf, ninf => pinf
  | fin a, pinf => if a > 0 then pinf else if a < 0 then ninf else nan
  | fin a, ninf => if a > 0 then ninf else if a < 0 then pinf else nan
  | pinf, fin b => if b > 0 then pinf else if b < 0 then ninf else nan
  | ninf, fin b => if b > 0 then ninf else if b < 0 then pinf else nan
  | fin a, fin b => fin (a * b)

end ERat

/-- `world::Ray`: origin and (not necessarily normalised) direction. -/
structure RayQ where
  origin : V3Q
  direction : V3Q
deriving DecidableEq, Repr

namespace RayQ

/-- `Ray::at`: `origin + direction * t`. -/
def atQ (r : RayQ) (t : ℚ) : V3Q := r.origin.add (r.direction.smul t)

end RayQ

/-- `geom::BoundingBox`: two corners. -/
structure BoxQ where
  minimum : V3Q
  maximum : V3Q
deriving DecidableEq, Repr

namespace BoxQ

/-- `BoundingBox::join`: componentwise min of minima and max of maxima. -/
def join (a b : BoxQ) : BoxQ :=
  ⟨a.minimum.vmin b.minimum, a.maximum.vmax b.maximum⟩

/-- One axis step of the slab test: given the axis slab bounds and the
current window, returns the narrowed window. -/
def slabStep (mn mx tmin tmax : ERat) : ERat × ERat :=
  (ERat.rmax mn tmin, ERat.rmin mx tmax)

/-- `BoundingBox::hit` (`src/geom.rs` lines 218-247).  `v_min` and `v_max`
are the componentwise IEEE quotients, `min`/`max` follow Rust `f32` NaN
dropping, and the three axes sequentially narrow `[t_min, t_max]`, failing
as soon as the window empties under the IEEE `<`. -/
def hit (b : BoxQ) (r : RayQ) (tmin tmax : ERat) : Bool :=
  let vminx := ERat.dq (b.minimum.x - r.origin.x) r.direction.x
  let vminy := ERat.dq (b.minimum.y - r.origin.y) r.direction.y
  let vminz := ERat.dq (b.minimum.z - r.origin.z) r.direction.z
  let vmaxx := ERat.dq (b.maximum.x - r.origin.x) r.direction.x
  let vmaxy := ERat.dq (b.maximum.y - r.origin.y) r.direction.y
  let vmaxz := ERat.dq (b.maximum.z - r.origin.z) r.direction.z
  let mnx := ERat.rmin vminx vmaxx
  let mny := ERat.rmin vminy vmaxy
  let mnz := ERat.rmin vminz vmaxz
  let mxx := ERat.rmax vminx vmaxx
  let mxy := ERat.rmax vminy vmaxy
  let mxz := ERat.rmax vminz vmaxz
  let t1 := ERat.rmax mnx tmin
  let u1 := ERat.rmin mxx tmax
  if ERat.blt u1 t1 then false
  else
    let t2 := ERat.rmax mny t1
    let u2 := ERat.rmin mxy u1
    if ERat.blt u2 t2 then false
    else
      let t3 := ERat.rmax mnz t2
      let u3 := ERat.rmin mxz u2
      if ERat.blt u3 t3 then false else true

/-- Componentwise box inclusion, `a` inside `b`. -/
def sub3 (a b : BoxQ) : Prop :=
  b.minimum.x ≤ a.minimum.x ∧ b.minimum.y ≤ a.minimum.y ∧
  b.minimum.z ≤ a.minimum.z ∧ a.maximum.x ≤ b.maximum.x ∧
  a.maximum.y ≤ b.maximum.y ∧ a.maximum.z ≤ b.maximum.z

instance (a b : BoxQ) : Decidable (sub3 a b) := by
  unfold sub3; infer_instance

end BoxQ

/-- `geom::Hit`, without the material reference (materials are modelled
separately); `uv` is the optional texture coordinate. -/
structure HitRec where
  point : V3Q
  normal : V3Q
  uv : Option V2Q
  t : ℚ
  frontFace : Bool
deriving DecidableEq, Repr

namespace HitRec

/-- `Hit::set_face_normal` (`src/geom.rs` lines 17-24): `front_face` is set to
`direction · outward < 0`, and the stored normal is `outward` when facing
front, `-outward` otherwise. -/
def setFaceNormal (h : HitRec) (r : RayQ) (outward : V3Q) : HitRec :=
  let ff := decide (r.direction.dot outward < 0)
  { h with frontFace := ff, normal := if ff then outward else outward.neg }

end HitRec

/-- `geom::Sphere` (center, radius); the material is kept out of the
geometric record. -/
structure SphereQ where
  center : V3Q
  radius : ℚ
deriving DecidableEq, Repr

namespace SphereQ

/-- `Sphere::intersect` (`src/geom.rs` lines 57-93).  The quadratic is solved
exactly; `discriminant.sqrt()` is modelled by `Rat.sqrt` (exact whenever the
discriminant is a perfect square, as in every concrete scene below).  The
window bounds are `ERat` because the tracer passes `f32::INFINITY`. -/
def intersect (s : SphereQ) (r : RayQ) (tmin tmax : ERat) : Option HitRec :=
  let offsetCenter := r.origin.sub s.center
  let a := r.direction.lengthSquared
  let halfB := offsetCenter.dot r.direction
  let c := offsetCenter.lengthSquared - s.radius * s.radius
  let discriminant := halfB * halfB - a * c
  if discriminant < 0 then none
  else
    let sqrtD := Rat.sqrt discriminant
    let root1 := (-halfB - sqrtD) / a
    let root2 := (-halfB + sqrtD) / a
    let pick : Option ℚ :=
      if ERat.blt (ERat.fin root1) tmin || ERat.blt tmax (ERat.fin root1) then
        if ERat.blt (ERat.fin root2) tmin || ERat.blt tmax (ERat.fin root2) then none
        else some root2
      else some root1
    pick.map fun root =>
      let point := r.atQ root
      let normal := (point.sub s.center).sdiv s.radius
      HitRec.setFaceNormal
        ⟨point, normal, none, root, false⟩ r normal

/-- `Sphere::bounding_box`: center ± |radius|. -/
def bbox (s : SphereQ) : BoxQ :=
  ⟨s.center.sub (V3Q.fill |s.radius|), s.center.add (V3Q.fill |s.radius|)⟩

end SphereQ

/-- The abstract face of a material as the triangle intersector sees it:
`normal` is the optional tangent-space normal map and `alpha_test` the
optional cut-out test (trait `material::Material`, with its defaults). -/
structure MatFace where
  normalMap : V2Q → Option V3Q
  alphaTest : V2Q → Bool

/-- The `Material` trait defaults: `normal` returns `None` and `alpha_test`
returns `true`. -/
def MatFace.default : MatFace := ⟨fun _ => none, fun _ => true⟩

/-- `geom::Triangle`: vertices, optional per-vertex UVs, per-vertex normals,
tangent frame, and the face of its material. -/
structure TriangleQ where
  vertexA : V3Q
  vertexB : V3Q
  vertexC : V3Q
  uvs : Option (V2Q × V2Q × V2Q)
  normalA : V3Q
  normalB : V3Q
  normalC : V3Q
  tangent : V3Q
  bitangent : V3Q
  face : MatFace

namespace TriangleQ

/-- `Triangle::intersect` (`src/geom.rs` lines 498-579): Möller–Trumbore with
a `1e-6` determinant cut-off (modelled as the exact rational `1/1000000`),
barycentric shading-normal and UV interpolation, the material's normal map
composed over the tangent frame, the alpha test, and `set_face_normal`. -/
def intersect (tr : TriangleQ) (r : RayQ) (tmin tmax : ERat) : Option HitRec :=
  let ab := tr.vertexB.sub tr.vertexA
  let ac := tr.vertexC.sub tr.vertexA
  let pVec := r.direction.cross ac
  let det := ab.dot pVec
  if |det| < 1 / 1000000 then none
  else
    let invDet := 1 / det
    let tVec := r.origin.sub tr.vertexA
    let u := tVec.dot pVec * invDet
    if u < 0 ∨ u > 1 then none
    else
      let qVec := tVec.cross ab
      let v := r.direction.dot qVec * invDet
      if v < 0 ∨ v + u > 1 then none
      else
        let t := ac.dot qVec * invDet
        if ERat.blt (ERat.fin t) tmin || ERat.blt tmax (ERat.fin t) then none
        else
          let point := r.atQ t
          let d0 := tr.vertexA.sub point
          let d1 := tr.vertexB.sub point
          let d2 := tr.vertexC.sub point
          let area := ((tr.vertexA.sub tr.vertexB).cross (tr.vertexA.sub tr.vertexC)).length
          let a0 := (d1.cross d2).length / area
          let a1 := (d2.cross d0).length / area
          let a2 := (d0.cross d1).length / area
          let normal0 := ((tr.normalA.smul a0).add (tr.normalB.smul a1)).add (tr.normalC.smul a2)
          let pair : V3Q × Option V2Q :=
            match tr.uvs with
            | some (uvA, uvB, uvC) =>
              let uv := ((uvA.smul a0).add (uvB.smul a1)).add (uvC.smul a2)
              let normal1 :=
                match tr.face.normalMap uv with
                | some tanNormal =>
                  ((tr.tangent.smul tanNormal.x).add (tr.bitangent.smul tanNormal.y)).add
                    (normal0.smul tanNormal.z)
                | none => normal0
              (normal1, some uv)
            | none => (normal0, none)
          let normal := pair.1
          let uv := pair.2
          if h : uv.isSome then
            if tr.face.alphaTest (uv.get h) then
              some (HitRec.setFaceNormal ⟨point, normal, uv, t, false⟩ r normal)
            else none
          else
            some (HitRec.setFaceNormal ⟨point, normal, uv, t, false⟩ r normal)

/-- `Triangle::bounding_box`: componentwise min/max of the vertices. -/
def bbox (tr : TriangleQ) : BoxQ :=
  ⟨(tr.vertexA.vmin tr.vertexB).vmin tr.vertexC,
   (tr.vertexA.vmax tr.vertexB).vmax tr.vertexC⟩

end TriangleQ

/-- ERat subtraction, for `hit_exit.t - hit_enter.t` in `Volume::intersect`
(IEEE: `∞ - ∞ = NaN`, NaN propagates). -/
def ERat.esub : ERat → ERat → ERat
  | ERat.nan, _ => ERat.nan
  | _, ERat.nan => ERat.nan
  | ERat.pinf, ERat.pinf => ERat.nan
  | ERat.pinf, _ => ERat.pinf
  | ERat.ninf, ERat.ninf => ERat.nan
  | ERat.ninf, _ => ERat.ninf
  | ERat.fin _, ERat.pinf => ERat.ninf
  | ERat.fin _, ERat.ninf => ERat.pinf
  | ERat.fin a, ERat.fin b => ERat.fin (a - b)

/-- ERat addition (IEEE: `∞ + (-∞) = NaN`, NaN propagates). -/
def ERat.eadd : ERat → ERat → ERat
  | ERat.nan, _ => ERat.nan
  | _, ERat.nan => ERat.nan
  | ERat.pinf, ERat.ninf => ERat.nan
  | ERat.pinf, _ => ERat.pinf
  | ERat.ninf, ERat.pinf => ERat.nan
  | ERat.ninf, _ => ERat.ninf
  | ERat.fin _, ERat.pinf => ERat.pinf
  | ERat.fin _, ERat.ninf => ERat.ninf
  | ERat.fin a, ERat.fin b => ERat.fin (a + b)

/-- ERat numerator divided by a finite rational (IEEE: `±∞ / q` keeps the
infinity, with the sign of `q`; division of an infinity by zero keeps it). -/
def ERat.edivq : ERat → ℚ → ERat
  | ERat.nan, _ => ERat.nan
  | ERat.fin a, b => ERat.dq a b
  | ERat.pinf, b => if b < 0 then ERat.ninf else ERat.pinf
  | ERat.ninf, b => if b < 0 then ERat.pinf else ERat.ninf

/-- `geom::Volume`: boundary intersectable (abstract), `-1/density` (an
`ERat`, because density 0 gives `-∞` in `f32`), and the ray length model. -/
structure VolumeQ where
  target : RayQ → ERat → ERat → Option HitRec
  negInvDensity : ERat

/-- `Volume::new`: stores `-1.0 / density` (IEEE division). -/
def VolumeQ.new (target : RayQ → ERat → ERat → Option HitRec) (density : ℚ) : VolumeQ :=
  ⟨target, ERat.dq (-1) density⟩

/-- `Volume::intersect` (`src/geom.rs` lines 606-649).  `lnu` models
`f32::rand().ln()` (the logarithm of the uniform draw; `rand` ranges over
`[0,1)`, so `lnu` is negative or `-∞`).  The clamped entry/exit parameters
are tracked as `ERat` because the window bounds may be infinite; a hit is
produced only when the final parameter is finite (a non-finite final
parameter would store a NaN/∞ `t` in the Rust `Hit`; no claim depends on
that corner, and the embedding folds it to a miss). -/
def VolumeQ.intersect (v : VolumeQ) (lnu : ERat) (r : RayQ) (tmin tmax : ERat) :
    Option HitRec :=
  match v.target r ERat.ninf ERat.pinf with
  | none => none
  | some hitEnter =>
    match v.target r (ERat.fin (hitEnter.t + 1 / 10000)) ERat.pinf with
    | none => none
    | some hitExit =>
      let enter1 := if ERat.blt (ERat.fin hitEnter.t) tmin then tmin else ERat.fin hitEnter.t
      let exit1 := if ERat.blt tmax (ERat.fin hitExit.t) then tmax else ERat.fin hitExit.t
      if ERat.ble exit1 enter1 then none
      else
        let enter2 := if ERat.blt enter1 (ERat.fin 0) then ERat.fin 0 else enter1
        let rayLength := r.direction.length
        let distInside := ERat.mul (ERat.esub exit1 enter2) (ERat.fin rayLength)
        let hitDistance := ERat.mul lnu v.negInvDensity
        if ERat.blt distInside hitDistance then none
        else
          match ERat.eadd enter2 (ERat.edivq hitDistance rayLength) with
          | ERat.fin t => some ⟨r.atQ t, V3Q.mk3 1 0 0, none, t, true⟩
          | _ => none

/-- An abstract BVH leaf: a primitive with a bounding box, an identity, and
an intersection routine reporting the hit parameter `t` (the full `Hit` is
irrelevant to the closest-hit comparison; the identity stands in for the
`Hit`'s material/primitive reference). -/
structure Prim where
  pid : ℕ
  pbox : BoxQ
  ihit : RayQ → ERat → ERat → Option ℚ

/-- `World::intersect`'s loop state (`src/world.rs` lines 131-144): iterate
over the objects, narrowing `closest_so_far` to each accepted hit's `t` and
remembering the last accepted hit. -/
def scanGo (r : RayQ) (tmin : ERat) : List Prim → ERat → Option (ℚ × ℕ) → Option (ℚ × ℕ)
  | [], _, found => found
  | p :: ps, closest, found =>
    match p.ihit r tmin closest with
    | some t => scanGo r tmin ps (ERat.fin t) (some (t, p.pid))
    | none => scanGo r tmin ps closest found

/-- `World::intersect`: linear scan with `closest_so_far` initialised to the
caller's `t_max`. -/
def worldIntersect (items : List Prim) (r : RayQ) (tmin tmax : ERat) : Option (ℚ × ℕ) :=
  scanGo r tmin items tmax none

/-- A built BVH.  `node1 l` models a Rust `BvhNode` with `left = Some`,
`right = None` (the only single-child shape `BvhNode::new` creates);
`node2` has both children.  Children may be primitives or sub-nodes, as in
the `Box<dyn Intersect>` of the source. -/
inductive Bvh where
  | prim (p : Prim)
  | node1 (l : Bvh) (bx : BoxQ)
  | node2 (l : Bvh) (r : Bvh) (bx : BoxQ)

/-- `Intersect::bounding_box` on a tree: a primitive's own box, or the
node's stored box. -/
def Bvh.box : Bvh → BoxQ
  | .prim p => p.pbox
  | .node1 _ bx => bx
  | .node2 _ _ bx => bx

/-- The primitives stored in a tree, in left-to-right order. -/
def Bvh.prims : Bvh → List Prim
  | .prim p => [p]
  | .node1 l _ => l.prims
  | .node2 l r _ => l.prims ++ r.prims

/-- `BvhNode::intersect` (`src/geom.rs` lines 186-200): test the node box;
recurse left with the caller's window, tighten `t_max` to a left hit's `t`,
recurse right, and prefer the right result (`.or(left_hit)`).  A leaf is a
primitive's own `intersect` (no box test). -/
def Bvh.intersect : Bvh → RayQ → ERat → ERat → Option (ℚ × ℕ)
  | .prim p, r, tmin, tmax => (p.ihit r tmin tmax).map fun t => (t, p.pid)
  | .node1 l bx, r, tmin, tmax =>
    if bx.hit r tmin tmax then
      let leftHit := l.intersect r tmin tmax
      let tmax2 := match leftHit with
        | some h => ERat.fin h.1
        | none => tmax
      let rightHit : Option (ℚ × ℕ) := none
      (rightHit.or leftHit : Option (ℚ × ℕ))
    else none
  | .node2 l rc bx, r, tmin, tmax =>
    if bx.hit r tmin tmax then
      let leftHit := l.intersect r tmin tmax
      let tmax2 := match leftHit with
        | some h => ERat.fin h.1
        | none => tmax
      let rightHit := rc.intersect r tmin tmax2
      rightHit.or leftHit
    else none

/-- The sort comparator of `BvhNode::new`: `compare_x/y/z` compare the
bounding-box minima along the chosen axis. -/
def compareAxis (ax : Fin 3) (a b : Prim) : Bool :=
  match ax with
  | 0 => a.pbox.minimum.x < b.pbox.minimum.x
  | 1 => a.pbox.minimum.y < b.pbox.minimum.y
  | 2 => a.pbox.minimum.z < b.pbox.minimum.z

/-- Stable insertion into a sorted prefix, used to model `sort_by`. -/
def insertBy (lt : Prim → Prim → Bool) (x : Prim) : List Prim → List Prim
  | [] => [x]
  | y :: ys => if lt x y then x :: y :: ys else y :: insertBy lt x ys

/-- `Vec::sort_by` modelled as insertion sort.  Only the permutation
property of the sort is used (for ties the Rust comparator is inconsistent
and the resulting order is unspecified). -/
def sortBy (lt : Prim → Prim → Bool) : List Prim → List Prim
  | [] => []
  | x :: xs => insertBy lt x (sortBy lt xs)

/-- Result of a fuelled run of `BvhNode::new`: a tree plus the next RNG
index, exhaustion of the fuel (the source recursion does not terminate on
an empty list), or the `unreachable!("Missing bounding box in bvh")` panic. -/
inductive BuildRes where
  | ok (t : Bvh) (next : ℕ)
  | outOfFuel
  | panicked

/-- The bounding-box computation at the end of `BvhNode::new`: join the
children's boxes; both children absent is the `unreachable!` panic.  (Every
modelled primitive has a bounding box, so the per-child `None` arms of the
source collapse.) -/
def mkNodeRes (l r : Option Bvh) (next : ℕ) : BuildRes :=
  match l, r with
  | none, none => .panicked
  | some lc, none => .ok (.node1 lc lc.box) next
  | none, some rc => .ok (.node1 rc rc.box) next
  | some lc, some rc => .ok (.node2 lc rc (lc.box.join rc.box)) next

/-- `BvhNode::new` (`src/geom.rs` lines 110-161), fuelled.  `s` is the
stream of axis draws (`fastrand::u8(0..3)`), consumed in call order at
index `i`.  A one-element list becomes a single left child; a two-element
list pops `b` then `a` off the vector and orders them by the comparator;
otherwise the list is sorted by the comparator, split at `len/2`, and both
halves are built recursively (an empty list also takes this branch and
recurses forever, hence the fuel). -/
def buildF : ℕ → (ℕ → Fin 3) → ℕ → List Prim → BuildRes
  | 0, _, _, _ => .outOfFuel
  | _ + 1, s, i, [p] => mkNodeRes (some (.prim p)) none (i + 1)
  | _ + 1, s, i, [p1, p2] =>
    if compareAxis (s i) p2 p1 then
      mkNodeRes (some (.prim p2)) (some (.prim p1)) (i + 1)
    else
      mkNodeRes (some (.prim p1)) (some (.prim p2)) (i + 1)
  | fuel + 1, s, i, items =>
    let sorted := sortBy (compareAxis (s i)) items
    let mid := sorted.length / 2
    match buildF fuel s (i + 1) (sorted.take mid) with
    | .outOfFuel => .outOfFuel
    | .panicked => .panicked
    | .ok lt li =>
      match buildF fuel s li (sorted.drop mid) with
      | .outOfFuel => .outOfFuel
      | .panicked => .panicked
      | .ok rt ri => mkNodeRes (some lt) (some rt) ri

/-- `material::Scatter`: attenuation and the scattered ray. -/
structure ScatterQ where
  attenuation : V3Q
  scattered : RayQ
deriving DecidableEq, Repr

/-- A material's operations (trait `material::Material`).  Scatter and emit
see the hit; `normalMap` is the trait's `normal` operation. -/
structure MaterialQ where
  scatter : RayQ → HitRec → Option ScatterQ
  emit : HitRec → Option V3Q
  normalMap : V2Q → Option V3Q
  alphaTest : V2Q → Bool

/-- `Mix::scatter` (`src/material.rs` lines 403-409): draw `u`, delegate to
the left material if `u < ratio`, else to the right. -/
def mixScatter (ratioVal : ℚ) (left right : MaterialQ) (u : ℚ) (r : RayQ)
    (h : HitRec) : Option ScatterQ :=
  if u < ratioVal then left.scatter r h else right.scatter r h

/-- `Mix::emit` (`src/material.rs` lines 411-417): an independent draw. -/
def mixEmit (ratioVal : ℚ) (left right : MaterialQ) (u : ℚ) (h : HitRec) :
    Option V3Q :=
  if u < ratioVal then left.emit h else right.emit h

/-- `Mix::alpha_test` (`src/material.rs` lines 419-425): an independent
draw. -/
def mixAlphaTest (ratioVal : ℚ) (left right : MaterialQ) (u : ℚ) (uv : V2Q) :
    Bool :=
  if u < ratioVal then left.alphaTest uv else right.alphaTest uv

/-- `Mix`'s `normal` operation: `impl Material for Mix` does NOT override
`normal`, so the trait default applies and the result is `None`
(`src/material.rs` lines 20-22 and 402-426). -/
def mixNormal (ratioVal : ℚ) (left right : MaterialQ) (uv : V2Q) : Option V3Q :=
  none

/-- The fuzz field stored by `Metal::new` (`src/material.rs` lines 255-258):
`if fuzz < 1.0 { fuzz } else { 1.0 }`. -/
def metalNewFuzz (fuzz : ℚ) : ℚ :=
  if fuzz < 1 then fuzz else 1

/-- The hit data `Camera::trace` consumes: `emitV` is `hit.emit()` (already
defaulted to black for non-emitters) and `scatterF` is `hit.scatter(ray)`. -/
structure THit where
  emitV : V3Q
  scatterF : RayQ → Option ScatterQ

/-- A scene as the integrator sees it: an intersection routine and a
background (trait bounds `I: Intersect + Background`). -/
structure TraceScene where
  intersect : RayQ → ERat → ERat → Option THit
  background : RayQ → V3Q

/-- `Camera::trace` (`src/world.rs` lines 65-79): at depth 0 return black
and 0; on a miss over `(0.001, +∞)` return the background and the current
depth; otherwise add the emission to the scattered recursion (depth-1), or
return just the emission when the material absorbs. -/
def trace (S : TraceScene) (r : RayQ) : ℕ → V3Q × ℕ
  | 0 => (V3Q.zero, 0)
  | d + 1 =>
    match S.intersect r (ERat.fin (1 / 1000)) ERat.pinf with
    | some h =>
      let emitted := h.emitV
      match h.scatterF r with
      | some sc =>
        let res := trace S sc.scattered d
        ((res.1.cmul sc.attenuation).add emitted, res.2)
      | none => (emitted, d + 1)
    | none => (S.background r, d + 1)

/-- `main::DisplayMode`. -/
inductive DisplayMode where
  | defaultMode
  | denoiseMode
  | depthMode
  | albedoMode
  | normalMode
deriving DecidableEq, Repr

/-- Rust's `as u8` on an `f32`: truncate toward zero and saturate to
`[0, 255]`. -/
def asU8 (v : ℚ) : ℕ :=
  if v ≤ 0 then 0 else if 255 ≤ v then 255 else v.floor.toNat

/-- `Image::to_rgb_bytes` (`src/main.rs` lines 638-720).  `pf` models
`f32::powf`, `dn` models the external denoiser, `albedoBuf`/`normalBuf` the
optional auxiliary buffers, `cnt` the accumulated sample count and `pix`
the accumulated `(color_sum, depth_sum)` pixels.  The first match arm
catches the Depth/Default/Denoise modes with a zero sample count and emits
black without touching `scale = 1/0`. -/
def toRgbBytes (pf : ℚ → ℚ → ℚ) (dn : List ℚ → List ℚ)
    (albedoBuf normalBuf : Option (List ℚ)) (cnt : ℕ)
    (pix : List (V3Q × ℕ)) (mode : DisplayMode) : List ℕ :=
  let scale : ℚ := 1 / (cnt : ℚ)
  let comp : ℚ → ℚ := fun fc => max (min (pf (scale * fc) (5 / 11)) 1) 0
  let zeros : List ℚ := (List.range pix.length).flatMap fun _ => [0, 0, 0]
  let pixelFloats : List ℚ :=
    if (mode = .depthMode ∨ mode = .defaultMode ∨ mode = .denoiseMode) ∧ cnt = 0 then
      zeros
    else
      match mode with
      | .depthMode =>
        let maxD := ((List.max? (pix.map fun p : V3Q × ℕ => p.2)).getD 1).max 1
        let maxDepth := (maxD : ℚ) * scale
        pix.flatMap fun p =>
          let d := min (max (((p.2 : ℚ) * scale) / maxDepth) 0) 1
          [d, d, d]
      | .defaultMode =>
        pix.flatMap fun p => [comp p.1.x, comp p.1.y, comp p.1.z]
      | .denoiseMode =>
        dn (pix.flatMap fun p => [comp p.1.x, comp p.1.y, comp p.1.z])
      | .albedoMode =>
        match albedoBuf with
        | some buf => buf.map fun p => pf (max (min p 1) 0) (5 / 11)
        | none => zeros
      | .normalMode =>
        match normalBuf with
        | some buf => buf.map fun p => (p + 1) / 2
        | none => zeros
  pixelFloats.map fun p => asU8 (p * 255)

/-- The componentwise `min ≤ max` invariant of a bounding box. -/
def BoxQ.wfQ (b : BoxQ) : Prop :=
  b.minimum.x ≤ b.maximum.x ∧ b.minimum.y ≤ b.maximum.y ∧ b.minimum.z ≤ b.maximum.z

/-- A point strictly inside a box, componentwise. -/
def BoxQ.insideStrict (p : V3Q) (b : BoxQ) : Prop :=
  b.minimum.x < p.x ∧ p.x < b.maximum.x ∧
  b.minimum.y < p.y ∧ p.y < b.maximum.y ∧
  b.minimum.z < p.z ∧ p.z < b.maximum.z

/-- The face-normal contract established by `Hit::set_face_normal`: there is
a geometric outward normal such that `front_face` records whether it
opposes the ray, and the stored normal is the outward normal or its
negation accordingly. -/
def FaceOk (r : RayQ) (h : HitRec) : Prop :=
  ∃ outward : V3Q,
    (h.frontFace = true ↔ r.direction.dot outward < 0) ∧
    h.normal = (if h.frontFace then outward else outward.neg)

/-- The deterministic-primitive laws under which BVH traversal agrees with
the linear scan.  `win`: a reported hit parameter lies inside the query
window.  `narrow`: shrinking `t_max` keeps a hit that still fits and
discards one that does not, and cannot create hits.  `boxTrue`: whenever
the primitive hits, the slab test succeeds on every box enclosing the
primitive's bounding box (this is where a boundary-grazing ray with a zero
direction component can fail in the source, see `BoundingBox::hit`).
Deterministic primitives such as spheres and triangles are designed to
satisfy these; the stochastic `Volume` does not. -/
structure Tame (p : Prim) : Prop where
  win : ∀ r tmin tmax t, p.ihit r tmin tmax = some t →
    ERat.ble tmin (ERat.fin t) = true ∧ ERat.ble (ERat.fin t) tmax = true
  narrowSome : ∀ r tmin tmax tmax2, ERat.ble tmax2 tmax = true →
    ∀ t, p.ihit r tmin tmax = some t →
      p.ihit r tmin tmax2 = if ERat.ble (ERat.fin t) tmax2 then some t else none
  narrowNone : ∀ r tmin tmax tmax2, ERat.ble tmax2 tmax = true →
    p.ihit r tmin tmax = none → p.ihit r tmin tmax2 = none
  boxTrue : ∀ bx, BoxQ.sub3 p.pbox bx → ∀ r tmin tmax t,
    p.ihit r tmin tmax = some t → bx.hit r tmin tmax = true

/-- Structural soundness of a built tree: every node's stored box encloses
its children's boxes. -/
def Bvh.good : Bvh → Prop
  | .prim _ => True
  | .node1 l bx => l.good ∧ BoxQ.sub3 l.box bx
  | .node2 l r bx => l.good ∧ r.good ∧ BoxQ.sub3 l.box bx ∧ BoxQ.sub3 r.box bx

/-- Every primitive of `ps` misses on the window. -/
def MissAll (ps : List Prim) (r : RayQ) (tmin tmax : ERat) : Prop :=
  ∀ p ∈ ps, p.ihit r tmin tmax = none

/-- `(t, i)` is a hit some primitive of `ps` reports on the window. -/
def IsHitIn (ps : List Prim) (r : RayQ) (tmin tmax : ERat) (t : ℚ) (i : ℕ) : Prop :=
  ∃ p ∈ ps, p.pid = i ∧ p.ihit r tmin tmax = some t

/-- `t` is a lower bound of every hit parameter reported over `ps`. -/
def MinIn (ps : List Prim) (r : RayQ) (tmin tmax : ERat) (t : ℚ) : Prop :=
  ∀ p ∈ ps, ∀ u, p.ihit r tmin tmax = some u → t ≤ u

/-- A closest-hit result is correct for `ps`: a miss means every primitive
misses; a hit is a reported hit with the minimal parameter. -/
def Catches (ps : List Prim) (r : RayQ) (tmin tmax : ERat) :
    Option (ℚ × ℕ) → Prop
  | none => MissAll ps r tmin tmax
  | some (t, i) => IsHitIn ps r tmin tmax t i ∧ MinIn ps r tmin tmax t

/-- A sphere-backed abstract primitive (identity, box, `t`-only hit). -/
def Prim.ofSphere (idv : ℕ) (s : SphereQ) : Prim :=
  ⟨idv, s.bbox, fun r tmin tmax => (s.intersect r tmin tmax).map fun h => h.t⟩

/-- A primitive that never hits (used to instantiate the equivalence
theorem at a concrete scene). -/
def primNone : Prim :=
  ⟨0, ⟨V3Q.zero, V3Q.zero⟩, fun _ _ _ => none⟩

/-- First sphere of the tie scene: tangent to the ray of `cexRay` at
`t = 1`. -/
def sphereTieA : SphereQ := ⟨V3Q.mk3 8 5 3, 7⟩

/-- Second sphere of the tie scene: also tangent at `t = 1`, with a
bounding-box minimum strictly below `sphereTieA`'s on every axis. -/
def sphereTieB : SphereQ := ⟨V3Q.mk3 32 (-57) 26, 70⟩

/-- The ray of the tie counterexample (all direction components nonzero). -/
def cexRay : RayQ := ⟨V3Q.zero, V3Q.mk3 2 3 6⟩

/-- The unit sphere at the origin, boundary of the volume examples. -/
def sphereUnit : SphereQ := ⟨V3Q.zero, 1⟩

/-- A ray entering `sphereUnit` from `x = -10` along `+x`. -/
def volRay : RayQ := ⟨V3Q.mk3 (-10) 0 0, V3Q.mk3 1 0 0⟩

/-- A material whose `normal` operation is overridden (the trait allows it;
`EveMaterial` in the source is such a material). -/
def matLeftNormal : MaterialQ :=
  ⟨fun _ _ => none, fun _ => some (V3Q.mk3 1 2 3), fun _ => some (V3Q.mk3 0 0 1),
   fun _ => true⟩

/-- A material with trait-default `normal` and a distinct behaviour on the
other operations. -/
def matAbsorb : MaterialQ :=
  ⟨fun _ _ => none, fun _ => none, fun _ => none, fun _ => false⟩

/-- A hit record at the origin (argument fodder for material calls). -/
def hitAtOrigin : HitRec :=
  ⟨V3Q.zero, V3Q.mk3 0 0 1, none, 1, true⟩

/-- Concrete scene for exercising `trace`: rays from `x = 0` scatter once
toward `x = 5` (a miss), rays from `x = 1` hit a pure emitter, anything
else misses. -/
def traceSceneW : TraceScene :=
  ⟨fun r _ _ =>
    if r.origin.x = 0 then
      some ⟨V3Q.mk3 1 1 0, fun _ => some ⟨V3Q.mk3 2 2 2, ⟨V3Q.mk3 5 0 0, V3Q.mk3 0 1 0⟩⟩⟩
    else if r.origin.x = 1 then some ⟨V3Q.mk3 3 3 3, fun _ => none⟩
    else none,
   fun _ => V3Q.mk3 7 8 9⟩

/-! ## Helper lemmas -/

theorem zeros_bytes (n : ℕ) :
    ((List.range n).flatMap fun _ => ([0, 0, 0] : List ℚ)).map (fun p => asU8 (p * 255)) =
      List.replicate (3 * n) 0 := by
  induction n with
  | zero => rfl
  | succ m ih =>
    rw [List.range_succ, List.flatMap_append, List.map_append, ih]
    have h3 : 3 * (m + 1) = 3 * m + 3 := by ring
    rw [h3, List.replicate_add]
    simp [asU8]

theorem clampLow_shape (e : ℚ) (tmin : ERat) :
    (∃ a : ℚ, (if ERat.blt (ERat.fin e) tmin then tmin else ERat.fin e) = ERat.fin a) ∨
    (if ERat.blt (ERat.fin e) tmin then tmin else ERat.fin e) = ERat.pinf := by
  cases tmin with
  | fin q => by_cases hq : ERat.blt (ERat.fin e) (ERat.fin q) = true
             · exact Or.inl ⟨q, by simp [hq]⟩
             · exact Or.inl ⟨e, by simp [hq]⟩
  | pinf => exact Or.inr (by simp [ERat.blt])
  | ninf => exact Or.inl ⟨e, by simp [ERat.blt]⟩
  | nan => exact Or.inl ⟨e, by simp [ERat.blt]⟩

theorem clampHigh_shape (x : ℚ) (tmax : ERat) :
    (∃ b : ℚ, (if ERat.blt tmax (ERat.fin x) then tmax else ERat.fin x) = ERat.fin b) ∨
    (if ERat.blt tmax (ERat.fin x) then tmax else ERat.fin x) = ERat.ninf := by
  cases tmax with
  | fin q => by_cases hq : ERat.blt (ERat.fin q) (ERat.fin x) = true
             · exact Or.inl ⟨q, by simp [hq]⟩
             · exact Or.inl ⟨x, by simp [hq]⟩
  | pinf => exact Or.inl ⟨x, by simp [ERat.blt]⟩
  | ninf => exact Or.inr (by simp [ERat.blt])
  | nan => exact Or.inl ⟨x, by simp [ERat.blt]⟩

theorem ble_pinf_of_ne_nan (x : ERat) (hx : x ≠ ERat.nan) :
    ERat.ble x ERat.pinf = true := by
  cases x <;> simp [ERat.ble] at hx ⊢

theorem ble_ninf_left (x : ERat) (hx : x ≠ ERat.nan) :
    ERat.ble ERat.ninf x = true := by
  cases x <;> simp [ERat.ble] at hx ⊢

theorem mul_ninf_of_neg (x : ERat) (hx : ERat.blt x (ERat.fin 0) = true) :
    ERat.mul x ERat.ninf = ERat.pinf := by
  cases x with
  | fin q =>
    have hq : q < 0 := by simpa [ERat.blt] using hx
    simp [ERat.mul, not_lt.mpr (le_of_lt hq), hq, asymm hq]
  | pinf => simp [ERat.blt] at hx
  | ninf => simp [ERat.mul]
  | nan => simp [ERat.blt] at hx

theorem faceOk_set (h0 : HitRec) (r : RayQ) (outward : V3Q) :
    FaceOk r (h0.setFaceNormal r outward) := by
  refine ⟨outward, ?_, ?_⟩ <;>
    simp [HitRec.setFaceNormal, decide_eq_true_eq]

theorem build_nil (fuel : ℕ) (s : ℕ → Fin 3) (i : ℕ) :
    buildF fuel s i [] = BuildRes.outOfFuel := by
  induction fuel generalizing i with
  | zero => rfl
  | succ n ih =>
    show buildF (n + 1) s i [] = BuildRes.outOfFuel
    simp only [buildF, sortBy, List.take_nil, List.drop_nil, ih]

theorem sub3_refl (b : BoxQ) : BoxQ.sub3 b b := by
  unfold BoxQ.sub3
  exact ⟨le_refl _, le_refl _, le_refl _, le_refl _, le_refl _, le_refl _⟩

theorem sub3_trans {a b c : BoxQ} (h1 : BoxQ.sub3 a b) (h2 : BoxQ.sub3 b c) :
    BoxQ.sub3 a c := by
  obtain ⟨u1, u2, u3, u4, u5, u6⟩ := h1
  obtain ⟨v1, v2, v3, v4, v5, v6⟩ := h2
  exact ⟨le_trans v1 u1, le_trans v2 u2, le_trans v3 u3,
    le_trans u4 v4, le_trans u5 v5, le_trans u6 v6⟩

theorem sub3_join_left (a b : BoxQ) : BoxQ.sub3 a (a.join b) := by
  unfold BoxQ.sub3 BoxQ.join V3Q.vmin V3Q.vmax
  exact ⟨min_le_left _ _, min_le_left _ _, min_le_left _ _,
    le_max_left _ _, le_max_left _ _, le_max_left _ _⟩

theorem sub3_join_right (a b : BoxQ) : BoxQ.sub3 b (a.join b) := by
  unfold BoxQ.sub3 BoxQ.join V3Q.vmin V3Q.vmax
  exact ⟨min_le_right _ _, min_le_right _ _, min_le_right _ _,
    le_max_right _ _, le_max_right _ _, le_max_right _ _⟩

theorem ble_fin_fin {a b : ℚ} : ERat.ble (ERat.fin a) (ERat.fin b) = true ↔ a ≤ b := by
  simp [ERat.ble]

theorem tame_lift {p : Prim} (tp : Tame p) {r : RayQ} {tmin tmax tmax2 : ERat} {t : ℚ}
    (hle : ERat.ble tmax2 tmax = true) (hh : p.ihit r tmin tmax2 = some t) :
    p.ihit r tmin tmax = some t := by
  cases hfull : p.ihit r tmin tmax with
  | none =>
    rw [tp.narrowNone r tmin tmax tmax2 hle hfull] at hh
    exact Option.noConfusion hh
  | some u =>
    have h2 := tp.narrowSome r tmin tmax tmax2 hle u hfull
    rw [h2] at hh
    by_cases hb : ERat.ble (ERat.fin u) tmax2 = true
    · rw [if_pos hb] at hh
      rw [← Option.some.inj hh]
    · rw [if_neg hb] at hh
      exact Option.noConfusion hh

theorem good_sub {t : Bvh} (hg : t.good) : ∀ p ∈ t.prims, BoxQ.sub3 p.pbox t.box := by
  induction t with
  | prim p =>
    intro q hq
    rw [List.mem_singleton.mp hq]
    exact sub3_refl _
  | node1 l bx ih =>
    intro q hq
    obtain ⟨hgl, hsub⟩ := hg
    exact sub3_trans (ih hgl q hq) hsub
  | node2 l rc bx ihl ihr =>
    intro q hq
    obtain ⟨hgl, hgr, hsl, hsr⟩ := hg
    rcases List.mem_append.mp hq with hq | hq
    · exact sub3_trans (ihl hgl q hq) hsl
    · exact sub3_trans (ihr hgr q hq) hsr

theorem insertBy_perm (lt : Prim → Prim → Bool) (x : Prim) (l : List Prim) :
    (insertBy lt x l).Perm (x :: l) := by
  induction l with
  | nil => exact List.Perm.refl _
  | cons y ys ih =>
    show (if lt x y then x :: y :: ys else y :: insertBy lt x ys).Perm (x :: y :: ys)
    by_cases h : lt x y = true
    · rw [if_pos h]
    · rw [if_neg h]
      exact (ih.cons y).trans (List.Perm.swap x y ys)

theorem sortBy_perm (lt : Prim → Prim → Bool) (l : List Prim) :
    (sortBy lt l).Perm l := by
  induction l with
  | nil => exact List.Perm.refl _
  | cons x xs ih =>
    exact (insertBy_perm lt x (sortBy lt xs)).trans (ih.cons x)

theorem scanGo_spec (r : RayQ) (tmin tmax : ERat) (ps : List Prim) :
    ∀ (c : ERat) (f : Option (ℚ × ℕ)),
      (∀ p ∈ ps, Tame p) →
      (f = none → c = tmax) →
      (∀ t i, f = some (t, i) → c = ERat.fin t ∧ ERat.ble (ERat.fin t) tmax = true) →
      (scanGo r tmin ps c f = none → f = none ∧ MissAll ps r tmin tmax) ∧
      (∀ t i, scanGo r tmin ps c f = some (t, i) →
        f = some (t, i) ∨ IsHitIn ps r tmin tmax t i) ∧
      (∀ t i, scanGo r tmin ps c f = some (t, i) →
        (∀ t0 i0, f = some (t0, i0) → t ≤ t0) ∧ MinIn ps r tmin tmax t) := by
  induction ps with
  | nil =>
    intro c f htame hA hB
    refine ⟨fun hres => ⟨hres, fun q hq => absurd hq (List.not_mem_nil q)⟩,
      fun t i hres => Or.inl hres, fun t i hres => ⟨?_, ?_⟩⟩
    · intro t0 i0 hf0
      rw [hf0] at hres
      have hpair := Option.some.inj hres
      cases hpair
      exact le_refl _
    · intro q hq
      exact absurd hq (List.not_mem_nil q)
  | cons p ps ih =>
    intro c f htame hA hB
    have tp : Tame p := htame p (List.mem_cons_self p ps)
    have htame' : ∀ q ∈ ps, Tame q := fun q hq => htame q (List.mem_cons_of_mem p hq)
    cases hp : p.ihit r tmin c with
    | some u =>
      have hfull : p.ihit r tmin tmax = some u := by
        rcases f with _ | ⟨t0, i0⟩
        · rw [hA rfl] at hp; exact hp
        · obtain ⟨hc, hble⟩ := hB t0 i0 rfl
          rw [hc] at hp
          exact tame_lift tp hble hp
      have hble_u : ERat.ble (ERat.fin u) tmax = true := (tp.win r tmin tmax u hfull).2
      rw [show scanGo r tmin (p :: ps) c f = scanGo r tmin ps (ERat.fin u) (some (u, p.pid))
        from by rw [scanGo, hp]]
      obtain ⟨Q1, Q2, Q3⟩ := ih (ERat.fin u) (some (u, p.pid)) htame'
        (fun hcontra => Option.noConfusion hcontra)
        (fun t i hti => by
          have hpair := Option.some.inj hti
          cases hpair
          exact ⟨rfl, hble_u⟩)
      refine ⟨?_, ?_, ?_⟩
      · intro hres
        obtain ⟨hcontra, _⟩ := Q1 hres
        exact Option.noConfusion hcontra
      · intro t i hres
        rcases Q2 t i hres with heq | hin
        · have hpair := Option.some.inj heq
          cases hpair
          exact Or.inr ⟨p, List.mem_cons_self p ps, rfl, hfull⟩
        · obtain ⟨q, hq, hqi, hqt⟩ := hin
          exact Or.inr ⟨q, List.mem_cons_of_mem p hq, hqi, hqt⟩
      · intro t i hres
        obtain ⟨hf', hmin⟩ := Q3 t i hres
        have htu : t ≤ u := hf' u p.pid rfl
        constructor
        · intro t0 i0 hf0
          obtain ⟨hc, _⟩ := hB t0 i0 hf0
          rw [hc] at hp
          have hu0 : u ≤ t0 := ble_fin_fin.mp (tp.win r tmin (ERat.fin t0) u hp).2
          exact le_trans htu hu0
        · intro q hq u' hq'
          rcases List.mem_cons.mp hq with hq | hq
          · subst hq
            rw [hfull] at hq'
            rw [← Option.some.inj hq']
            exact htu
          · exact hmin q hq u' hq'
    | none =>
      rw [show scanGo r tmin (p :: ps) c f = scanGo r tmin ps c f from by rw [scanGo, hp]]
      obtain ⟨Q1, Q2, Q3⟩ := ih c f htame' hA hB
      refine ⟨?_, ?_, ?_⟩
      · intro hres
        obtain ⟨hf, hmiss⟩ := Q1 hres
        refine ⟨hf, ?_⟩
        intro q hq
        rcases List.mem_cons.mp hq with hq | hq
        · subst hq
          rw [hA hf] at hp
          exact hp
        · exact hmiss q hq
      · intro t i hres
        rcases Q2 t i hres with heq | hin
        · exact Or.inl heq
        · obtain ⟨q, hq, hqi, hqt⟩ := hin
          exact Or.inr ⟨q, List.mem_cons_of_mem p hq, hqi, hqt⟩
      · intro t i hres
        obtain ⟨hf', hmin⟩ := Q3 t i hres
        refine ⟨hf', ?_⟩
        intro q hq u' hq'
        rcases List.mem_cons.mp hq with hq | hq
        · subst hq
          rcases f with _ | ⟨t0, i0⟩
          · rw [hA rfl] at hp
            rw [hp] at hq'
            exact Option.noConfusion hq'
          · obtain ⟨hc, hble⟩ := hB t0 i0 rfl
            have h2 := tp.narrowSome r tmin tmax (ERat.fin t0) hble u' hq'
            rw [hc] at hp
            rw [hp] at h2
            by_cases hble2 : ERat.ble (ERat.fin u') (ERat.fin t0) = true
            · rw [if_pos hble2] at h2
              exact Option.noConfusion h2
            · have ht0u : t0 < u' := lt_of_not_le (fun hcon => hble2 (ble_fin_fin.mpr hcon))
              exact le_of_lt (lt_of_le_of_lt (hf' t0 i0 rfl) ht0u)
        · exact hmin q hq u' hq'

theorem none_or_eq {α : Type} (x : Option α) : Option.or none x = x := rfl

theorem some_or_eq {α : Type} (a : α) (x : Option α) : Option.or (some a) x = some a := rfl

theorem scan_catches (items : List Prim) (r : RayQ) (tmin tmax : ERat)
    (ht : ∀ p ∈ items, Tame p) :
    Catches items r tmin tmax (worldIntersect items r tmin tmax) := by
  obtain ⟨Q1, Q2, Q3⟩ := scanGo_spec r tmin tmax items tmax none ht (fun _ => rfl)
    (fun t i h => Option.noConfusion h)
  unfold worldIntersect
  cases hres : scanGo r tmin items tmax none with
  | none =>
    show MissAll items r tmin tmax
    exact (Q1 hres).2
  | some ti =>
    obtain ⟨t, i⟩ := ti
    show IsHitIn items r tmin tmax t i ∧ MinIn items r tmin tmax t
    rcases Q2 t i hres with hcontra | hin
    · exact Option.noConfusion hcontra
    · exact ⟨hin, (Q3 t i hres).2⟩

theorem traverse_spec (r : RayQ) (tmin : ERat) :
    ∀ (t : Bvh) (tmax : ERat), t.good → (∀ p ∈ t.prims, Tame p) →
      Catches t.prims r tmin tmax (t.intersect r tmin tmax) := by
  intro t
  induction t with
  | prim p =>
    intro tmax _ htame
    show Catches [p] r tmin tmax ((p.ihit r tmin tmax).map fun u => (u, p.pid))
    cases hp : p.ihit r tmin tmax with
    | none =>
      show MissAll [p] r tmin tmax
      intro q hq
      rw [List.mem_singleton.mp hq]
      exact hp
    | some u =>
      show IsHitIn [p] r tmin tmax u p.pid ∧ MinIn [p] r tmin tmax u
      refine ⟨⟨p, List.mem_singleton.mpr rfl, rfl, hp⟩, ?_⟩
      intro q hq u' hq'
      rw [List.mem_singleton.mp hq] at hq'
      rw [hp] at hq'
      rw [← Option.some.inj hq']
  | node1 l bx ih =>
    intro tmax hg htame
    obtain ⟨hgl, hsub⟩ := hg
    by_cases hbox : bx.hit r tmin tmax = true
    · have hred : (Bvh.node1 l bx).intersect r tmin tmax = l.intersect r tmin tmax := by
        show (if bx.hit r tmin tmax then Option.or none (l.intersect r tmin tmax) else none) =
          l.intersect r tmin tmax
        rw [if_pos hbox, none_or_eq]
      rw [show (Bvh.node1 l bx).prims = l.prims from rfl, hred]
      exact ih tmax hgl htame
    · have hred : (Bvh.node1 l bx).intersect r tmin tmax = none := by
        show (if bx.hit r tmin tmax then Option.or none (l.intersect r tmin tmax) else none) = none
        rw [if_neg hbox]
      rw [hred]
      show MissAll l.prims r tmin tmax
      intro q hq
      cases hq' : q.ihit r tmin tmax with
      | none => rfl
      | some u =>
        exact absurd ((htame q hq).boxTrue bx
          (sub3_trans (good_sub hgl q hq) hsub) r tmin tmax u hq') hbox
  | node2 l rc bx ihl ihr =>
    intro tmax hg htame
    have hgood := hg
    obtain ⟨hgl, hgr, hsl, hsr⟩ := hg
    have htl : ∀ p ∈ l.prims, Tame p :=
      fun p hp => htame p (List.mem_append.mpr (Or.inl hp))
    have htr2 : ∀ p ∈ rc.prims, Tame p :=
      fun p hp => htame p (List.mem_append.mpr (Or.inr hp))
    by_cases hbox : bx.hit r tmin tmax = true
    · have hred : (Bvh.node2 l rc bx).intersect r tmin tmax =
          Option.or
            (rc.intersect r tmin
              (match l.intersect r tmin tmax with
                | some h => ERat.fin h.1
                | none => tmax))
            (l.intersect r tmin tmax) := by
        show (if bx.hit r tmin tmax then _ else none) = _
        rw [if_pos hbox]
      rw [show (Bvh.node2 l rc bx).prims = l.prims ++ rc.prims from rfl, hred]
      cases hlh : l.intersect r tmin tmax with
      | none =>
        have hmissL : MissAll l.prims r tmin tmax := by
          have h0 := ihl tmax hgl htl
          rw [hlh] at h0
          exact h0
        simp only [hlh]
        have hcr := ihr tmax hgr htr2
        cases hrh : rc.intersect r tmin tmax with
        | none =>
          rw [none_or_eq]
          show MissAll (l.prims ++ rc.prims) r tmin tmax
          intro q hq
          rcases List.mem_append.mp hq with hq | hq
          · exact hmissL q hq
          · rw [hrh] at hcr
            exact hcr q hq
        | some ti =>
          obtain ⟨t, i⟩ := ti
          rw [some_or_eq]
          rw [hrh] at hcr
          obtain ⟨⟨pr, hpr_mem, hpr_id, hpr_hit⟩, hminR⟩ := hcr
          show IsHitIn (l.prims ++ rc.prims) r tmin tmax t i ∧
            MinIn (l.prims ++ rc.prims) r tmin tmax t
          refine ⟨⟨pr, List.mem_append.mpr (Or.inr hpr_mem), hpr_id, hpr_hit⟩, ?_⟩
          intro q hq u' hq'
          rcases List.mem_append.mp hq with hq | hq
          · rw [hmissL q hq] at hq'
            exact Option.noConfusion hq'
          · exact hminR q hq u' hq'
      | some tl_il =>
        obtain ⟨tl, il⟩ := tl_il
        have hcl : Catches l.prims r tmin tmax (some (tl, il)) := by
          have h0 := ihl tmax hgl htl
          rw [hlh] at h0
          exact h0
        obtain ⟨⟨pl, hpl_mem, hpl_id, hpl_hit⟩, hminL⟩ := hcl
        have hble_tl : ERat.ble (ERat.fin tl) tmax = true :=
          ((htl pl hpl_mem).win r tmin tmax tl hpl_hit).2
        have hcr := ihr (ERat.fin tl) hgr htr2
        simp only [hlh]
        cases hrh : rc.intersect r tmin (ERat.fin tl) with
        | none =>
          rw [none_or_eq]
          rw [hrh] at hcr
          show IsHitIn (l.prims ++ rc.prims) r tmin tmax tl il ∧
            MinIn (l.prims ++ rc.prims) r tmin tmax tl
          refine ⟨⟨pl, List.mem_append.mpr (Or.inl hpl_mem), hpl_id, hpl_hit⟩, ?_⟩
          intro q hq u' hq'
          rcases List.mem_append.mp hq with hq | hq
          · exact hminL q hq u' hq'
          · have h2 := (htr2 q hq).narrowSome r tmin tmax (ERat.fin tl) hble_tl u' hq'
            rw [hcr q hq] at h2
            by_cases hb2 : ERat.ble (ERat.fin u') (ERat.fin tl) = true
            · rw [if_pos hb2] at h2
              exact Option.noConfusion h2
            · exact le_of_lt (lt_of_not_le fun hcon => hb2 (ble_fin_fin.mpr hcon))
        | some t_i =>
          obtain ⟨t, i⟩ := t_i
          rw [some_or_eq]
          rw [hrh] at hcr
          obtain ⟨⟨pr, hpr_mem, hpr_id, hpr_hit⟩, hminR⟩ := hcr
          have ht_le_tl : t ≤ tl :=
            ble_fin_fin.mp (((htr2 pr hpr_mem).win r tmin (ERat.fin tl) t hpr_hit).2)
          have hpr_full : pr.ihit r tmin tmax = some t :=
            tame_lift (htr2 pr hpr_mem) hble_tl hpr_hit
          show IsHitIn (l.prims ++ rc.prims) r tmin tmax t i ∧
            MinIn (l.prims ++ rc.prims) r tmin tmax t
          refine ⟨⟨pr, List.mem_append.mpr (Or.inr hpr_mem), hpr_id, hpr_full⟩, ?_⟩
          intro q hq u' hq'
          rcases List.mem_append.mp hq with hq | hq
          · exact le_trans ht_le_tl (hminL q hq u' hq')
          · have h2 := (htr2 q hq).narrowSome r tmin tmax (ERat.fin tl) hble_tl u' hq'
            by_cases hb2 : ERat.ble (ERat.fin u') (ERat.fin tl) = true
            · rw [if_pos hb2] at h2
              exact hminR q hq u' h2
            · have htlu : tl < u' := lt_of_not_le fun hcon => hb2 (ble_fin_fin.mpr hcon)
              exact le_of_lt (lt_of_le_of_lt ht_le_tl htlu)
    · have hred : (Bvh.node2 l rc bx).intersect r tmin tmax = none := by
        show (if bx.hit r tmin tmax then _ else none) = none
        rw [if_neg hbox]
      rw [hred]
      show MissAll (l.prims ++ rc.prims) r tmin tmax
      intro q hq
      cases hq' : q.ihit r tmin tmax with
      | none => rfl
      | some u =>
        exact absurd ((htame q hq).boxTrue bx (good_sub hgood q hq) r tmin tmax u hq') hbox

theorem catches_perm {ps qs : List Prim} {r : RayQ} {tmin tmax : ERat}
    {res : Option (ℚ × ℕ)} (hperm : ps.Perm qs)
    (hc : Catches ps r tmin tmax res) : Catches qs r tmin tmax res := by
  cases res with
  | none =>
    intro q hq
    exact hc q (hperm.mem_iff.mpr hq)
  | some ti =>
    obtain ⟨t, i⟩ := ti
    obtain ⟨⟨p, hp, hpid, hphit⟩, hmin⟩ := hc
    exact ⟨⟨p, hperm.mem_iff.mp hp, hpid, hphit⟩,
      fun q hq u hq' => hmin q (hperm.mem_iff.mpr hq) u hq'⟩

theorem catches_t_eq {ps : List Prim} {r : RayQ} {tmin tmax : ERat}
    {res1 res2 : Option (ℚ × ℕ)} (h1 : Catches ps r tmin tmax res1)
    (h2 : Catches ps r tmin tmax res2) :
    res1.map Prod.fst = res2.map Prod.fst := by
  cases res1 with
  | none =>
    cases res2 with
    | none => rfl
    | some ti =>
      obtain ⟨t, i⟩ := ti
      obtain ⟨⟨p, hp, _, hphit⟩, _⟩ := h2
      rw [h1 p hp] at hphit
      exact Option.noConfusion hphit
  | some ti =>
    obtain ⟨t, i⟩ := ti
    cases res2 with
    | none =>
      obtain ⟨⟨p, hp, _, hphit⟩, _⟩ := h1
      rw [h2 p hp] at hphit
      exact Option.noConfusion hphit
    | some ti2 =>
      obtain ⟨t2, i2⟩ := ti2
      obtain ⟨⟨p, hp, _, hphit⟩, hmin⟩ := h1
      obtain ⟨⟨p2, hp2, _, hphit2⟩, hmin2⟩ := h2
      have hle1 : t ≤ t2 := hmin p2 hp2 t2 hphit2
      have hle2 : t2 ≤ t := hmin2 p hp t hphit
      simp [le_antisymm hle1 hle2]

theorem catches_full_eq {ps : List Prim} {r : RayQ} {tmin tmax : ERat}
    {res1 res2 : Option (ℚ × ℕ)} (h1 : Catches ps r tmin tmax res1)
    (h2 : Catches ps r tmin tmax res2)
    (huniq : ∀ p ∈ ps, ∀ q ∈ ps, ∀ t : ℚ,
      p.ihit r tmin tmax = some t → q.ihit r tmin tmax = some t → p.pid = q.pid) :
    res1 = res2 := by
  have hts := catches_t_eq h1 h2
  cases res1 with
  | none =>
    cases res2 with
    | none => rfl
    | some ti => exact Option.noConfusion hts
  | some ti =>
    obtain ⟨t, i⟩ := ti
    cases res2 with
    | none => exact Option.noConfusion hts
    | some ti2 =>
      obtain ⟨t2, i2⟩ := ti2
      have ht : t = t2 := by
        have := Option.some.inj hts
        simpa using this
      subst ht
      obtain ⟨⟨p, hp, hpid, hphit⟩, _⟩ := h1
      obtain ⟨⟨p2, hp2, hpid2, hphit2⟩, _⟩ := h2
      rw [← hpid, ← hpid2, huniq p hp p2 hp2 t hphit hphit2]

theorem mkNodeRes_ok {l r : Option Bvh} {next : ℕ} {tr : Bvh} {k : ℕ}
    (h : mkNodeRes l r next = BuildRes.ok tr k) :
    (∃ lc, l = some lc ∧ r = none ∧ tr = Bvh.node1 lc lc.box) ∨
    (∃ rc, l = none ∧ r = some rc ∧ tr = Bvh.node1 rc rc.box) ∨
    (∃ lc rc, l = some lc ∧ r = some rc ∧
      tr = Bvh.node2 lc rc (lc.box.join rc.box)) := by
  cases l with
  | none =>
    cases r with
    | none => exact BuildRes.noConfusion h
    | some rc =>
      injection h with h1 _
      exact Or.inr (Or.inl ⟨rc, rfl, rfl, h1.symm⟩)
  | some lc =>
    cases r with
    | none =>
      injection h with h1 _
      exact Or.inl ⟨lc, rfl, rfl, h1.symm⟩
    | some rc =>
      injection h with h1 _
      exact Or.inr (Or.inr ⟨lc, rc, rfl, rfl, h1.symm⟩)

theorem build_ok (fuel : ℕ) (s : ℕ → Fin 3) :
    ∀ (items : List Prim) (i k : ℕ) (tr : Bvh),
      buildF fuel s i items = BuildRes.ok tr k → tr.prims.Perm items ∧ tr.good := by
  induction fuel with
  | zero => intro items i k tr h; exact BuildRes.noConfusion h
  | succ n ih =>
    intro items i k tr h
    match items with
    | [] =>
      rw [build_nil] at h
      exact BuildRes.noConfusion h
    | [p] =>
      simp only [buildF] at h
      rcases mkNodeRes_ok h with ⟨lc, hl, _, htr⟩ | ⟨rc, hl, _, _⟩ | ⟨lc, rc, _, hr, _⟩
      · rw [← Option.some.inj hl] at htr
        subst htr
        exact ⟨List.Perm.refl _, trivial, sub3_refl _⟩
      · exact Option.noConfusion hl
      · exact Option.noConfusion hr
    | [p1, p2] =>
      simp only [buildF] at h
      split at h <;>
        · rcases mkNodeRes_ok h with ⟨lc, hl, hr, _⟩ | ⟨rc, hl, _, _⟩ | ⟨lc, rc, hl, hr, htr⟩
          · exact Option.noConfusion hr
          · exact Option.noConfusion hl
          · rw [← Option.some.inj hl] at htr
            rw [← Option.some.inj hr] at htr
            subst htr
            refine ⟨?_, trivial, trivial, sub3_join_left _ _, sub3_join_right _ _⟩
            first
              | exact List.Perm.swap p1 p2 []
              | exact List.Perm.refl _
    | p1 :: p2 :: p3 :: rest =>
      simp only [buildF] at h
      split at h
      · exact BuildRes.noConfusion h
      · exact BuildRes.noConfusion h
      · next lt li hlt =>
        split at h
        · exact BuildRes.noConfusion h
        · exact BuildRes.noConfusion h
        · next rt ri hrt =>
          obtain ⟨hpl, hgl⟩ := ih _ _ _ _ hlt
          obtain ⟨hpr, hgr⟩ := ih _ _ _ _ hrt
          rcases mkNodeRes_ok h with ⟨lc, hl, hr, _⟩ | ⟨rc, hl, _, _⟩ | ⟨lc, rc, hl, hr, htr⟩
          · exact Option.noConfusion hr
          · exact Option.noConfusion hl
          · rw [← Option.some.inj hl] at htr
            rw [← Option.some.inj hr] at htr
            subst htr
            constructor
            · refine (hpl.append hpr).trans ?_
              rw [List.take_append_drop]
              exact sortBy_perm _ _
            · exact ⟨hgl, hgr, sub3_join_left _ _, sub3_join_right _ _⟩

theorem ite_some_none {α : Type} (c : Prop) [Decidable c] (x h : α)
    (he : (if c then some x else none) = some h) : h = x := by
  by_cases hc : c
  · rw [if_pos hc] at he
    exact (Option.some.inj he).symm
  · rw [if_neg hc] at he
    exact Option.noConfusion he

theorem slab_axis (bmin bmax o d t1 t2 : ℚ)
    (h1 : bmin - o < 0) (h2 : 0 < bmax - o) (hneg : t1 < 0) (hpos : 0 < t2) :
    ∃ t1' t2' : ℚ,
      ERat.rmax (ERat.rmin (ERat.dq (bmin - o) d) (ERat.dq (bmax - o) d)) (ERat.fin t1) =
        ERat.fin t1' ∧
      ERat.rmin (ERat.rmax (ERat.dq (bmin - o) d) (ERat.dq (bmax - o) d)) (ERat.fin t2) =
        ERat.fin t2' ∧ t1' < 0 ∧ 0 < t2' := by
  rcases lt_trichotomy d 0 with hd | hd | hd
  · have hd0 : d ≠ 0 := ne_of_lt hd
    have hlo : 0 < (bmin - o) / d := div_pos_of_neg_of_neg h1 hd
    have hhi : (bmax - o) / d < 0 := div_neg_of_pos_of_neg h2 hd
    refine ⟨max (min ((bmin - o) / d) ((bmax - o) / d)) t1,
            min (max ((bmin - o) / d) ((bmax - o) / d)) t2, ?_, ?_, ?_, ?_⟩
    · simp [ERat.dq, hd0, ERat.rmin, ERat.rmax]
    · simp [ERat.dq, hd0, ERat.rmin, ERat.rmax]
    · exact max_lt (lt_of_le_of_lt (min_le_right _ _) hhi) hneg
    · exact lt_min (lt_of_lt_of_le hlo (le_max_left _ _)) hpos
  · subst hd
    have e1 : ERat.dq (bmin - o) 0 = ERat.ninf := by
      unfold ERat.dq
      rw [if_neg (by simp), if_neg (not_lt.mpr (le_of_lt h1)), if_pos h1]
    have e2 : ERat.dq (bmax - o) 0 = ERat.pinf := by
      unfold ERat.dq
      rw [if_neg (by simp), if_pos h2]
    exact ⟨t1, t2, by simp [e1, e2, ERat.rmin, ERat.rmax], by
      simp [e1, e2, ERat.rmin, ERat.rmax], hneg, hpos⟩
  · have hd0 : d ≠ 0 := ne_of_gt hd
    have hlo : (bmin - o) / d < 0 := div_neg_of_neg_of_pos h1 hd
    have hhi : 0 < (bmax - o) / d := div_pos h2 hd
    refine ⟨max (min ((bmin - o) / d) ((bmax - o) / d)) t1,
            min (max ((bmin - o) / d) ((bmax - o) / d)) t2, ?_, ?_, ?_, ?_⟩
    · simp [ERat.dq, hd0, ERat.rmin, ERat.rmax]
    · simp [ERat.dq, hd0, ERat.rmin, ERat.rmax]
    · exact max_lt (lt_of_le_of_lt (min_le_left _ _) hlo) hneg
    · exact lt_min (lt_of_lt_of_le hhi (le_max_right _ _)) hpos

theorem tame_primNone : Tame primNone := by
  constructor
  · intro r tmin tmax t h
    exact Option.noConfusion h
  · intro r tmin tmax tmax2 hle t h
    exact Option.noConfusion h
  · intro r tmin tmax tmax2 hle h
    rfl
  · intro bx hs r tmin tmax t h
    exact Option.noConfusion h

/-! ## C1: BVH traversal against the linear scan -/

/-- C1, counterexample: two spheres tangent to the same ray at the same
parameter `t = 1` (`sphereTieA` at distance 7 from the tangent point,
`sphereTieB` at distance 70, with strictly smaller bounding-box minima on
every axis).  The linear scan of `World::intersect` over `[A, B]` keeps the
later-accepted equal hit and returns sphere `B` (id 1); the BVH built by
`BvhNode::new` orders `B` left and `A` right, and the traversal prefers the
right child's equal hit, returning sphere `A` (id 0).  Same `t`, different
primitive — so traversal and scan do not return the same closest hit. -/
theorem c1_cex :
    worldIntersect [Prim.ofSphere 0 sphereTieA, Prim.ofSphere 1 sphereTieB] cexRay
      (ERat.fin 0) (ERat.fin 10) = some (1, 1) ∧
    (match buildF 5 (fun _ => 0) 0
        [Prim.ofSphere 0 sphereTieA, Prim.ofSphere 1 sphereTieB] with
      | BuildRes.ok tr _ => tr.intersect cexRay (ERat.fin 0) (ERat.fin 10)
      | _ => none) = some (1, 0) := by
  constructor
  · norm_num [worldIntersect, scanGo, Prim.ofSphere, SphereQ.intersect, sphereTieA,
      sphereTieB, cexRay, V3Q.lengthSquared, V3Q.dot, V3Q.sub, V3Q.add, V3Q.smul,
      V3Q.sdiv, V3Q.mk3, V3Q.zero, V3Q.fill, V3Q.neg, RayQ.atQ, ERat.blt, Rat.sqrt,
      HitRec.setFaceNormal, Option.map]
  · norm_num [buildF, compareAxis, mkNodeRes, Prim.ofSphere, SphereQ.bbox, sphereTieA,
      sphereTieB, V3Q.mk3, V3Q.sub, V3Q.add, V3Q.fill, Bvh.intersect, Bvh.box,
      BoxQ.join, BoxQ.hit, V3Q.vmin, V3Q.vmax, ERat.dq, ERat.rmin, ERat.rmax,
      ERat.blt, cexRay, V3Q.zero, SphereQ.intersect, V3Q.lengthSquared, V3Q.dot,
      V3Q.smul, V3Q.sdiv, V3Q.neg, RayQ.atQ, Rat.sqrt, HitRec.setFaceNormal,
      Option.map, Option.or]

/-- C1, amended: for deterministic primitives satisfying the `Tame` laws
(hits lie in the query window, hits are stable under `t_max` narrowing, and
the slab test succeeds on every enclosing box whenever the primitive hits —
spheres and triangles are designed to satisfy these; the stochastic
`Volume` and exact boundary-grazing rays with a zero direction component
are excluded), BVH traversal returns a hit with the same `t` as the linear
scan of `World::intersect` (or both miss); and whenever at most one
primitive attains any given hit parameter, traversal and scan return the
same primitive as well.  The returned primitive may differ (only) when
several primitives are hit at exactly the same minimal `t`, as in the
counterexample. -/
theorem c1_bvh_scan (items : List Prim) (fuel : ℕ) (s : ℕ → Fin 3) (i k : ℕ)
    (tr : Bvh) (r : RayQ) (tmin tmax : ERat)
    (htame : ∀ p ∈ items, Tame p)
    (hb : buildF fuel s i items = BuildRes.ok tr k) :
    (tr.intersect r tmin tmax).map Prod.fst =
      (worldIntersect items r tmin tmax).map Prod.fst ∧
    ((∀ p ∈ items, ∀ q ∈ items, ∀ t : ℚ,
        p.ihit r tmin tmax = some t → q.ihit r tmin tmax = some t → p.pid = q.pid) →
      tr.intersect r tmin tmax = worldIntersect items r tmin tmax) := by
  obtain ⟨hperm, hgood⟩ := build_ok fuel s items i k tr hb
  have htame' : ∀ p ∈ tr.prims, Tame p := fun p hp => htame p (hperm.subset hp)
  have hc1 : Catches items r tmin tmax (tr.intersect r tmin tmax) :=
    catches_perm hperm (traverse_spec r tmin tr tmax hgood htame')
  have hc2 := scan_catches items r tmin tmax htame
  exact ⟨catches_t_eq hc1 hc2, fun huniq => catches_full_eq hc1 hc2 huniq⟩

/-- C1, witness. -/
theorem c1_witness :
    (Bvh.node1 (Bvh.prim primNone) primNone.pbox).intersect volRay (ERat.fin 0)
      (ERat.fin 1) = worldIntersect [primNone] volRay (ERat.fin 0) (ERat.fin 1) := by
  have h := c1_bvh_scan [primNone] 2 (fun _ => 0) 0 1
    (Bvh.node1 (Bvh.prim primNone) primNone.pbox) volRay (ERat.fin 0) (ERat.fin 1)
    (fun p hp => by rw [List.mem_singleton.mp hp]; exact tame_primNone) rfl
  exact h.2 (fun p hp q hq t hpt hqt => by
    rw [List.mem_singleton.mp hp] at hpt
    exact Option.noConfusion hpt)

/-! ## C7: the `near_zero` threshold -/

/-- C7, counterexample: at `v = (2⁻¹⁷, 0, 0)` every component is at most
`1e-5` in absolute value, yet `near_zero` returns `false`, so the claimed
characterisation with threshold `1e-5` fails. -/
theorem c7_cex :
    ¬ (V3Q.nearZero (V3Q.mk3 (1 / 131072) 0 0) = true ↔
      (|(1 : ℚ) / 131072| ≤ 1 / 100000 ∧ |(0 : ℚ)| ≤ 1 / 100000 ∧
        |(0 : ℚ)| ≤ 1 / 100000)) := by
  intro h
  have ha : |(1 : ℚ) / 131072| = 1 / 131072 := abs_of_nonneg (by norm_num)
  have h2 := h.mpr ⟨by rw [ha]; norm_num, by norm_num, by norm_num⟩
  have h3 : V3Q.nearZero (V3Q.mk3 (1 / 131072) 0 0) = false := by
    norm_num [V3Q.nearZero, V3Q.mk3, ha]
  rw [h2] at h3
  exact Bool.noConfusion h3

/-- C7, amended: `V3::near_zero` returns `true` exactly when the absolute
value of each component is at most `3 · f32::EPSILON = 3/2²³` (the source
compares against `3.0 * f32::EPSILON`, not `1e-5`). -/
theorem c7_near_zero (v : V3Q) :
    V3Q.nearZero v = true ↔
      (|v.x| ≤ 3 / 8388608 ∧ |v.y| ≤ 3 / 8388608 ∧ |v.z| ≤ 3 / 8388608) := by
  simp [V3Q.nearZero, Bool.and_eq_true, decide_eq_true_eq, and_assoc]

/-! ## C8: the stored Metal fuzz -/

/-- C8, counterexample: `Metal::new(-1.0, _)` stores fuzz `-1`, which is not
in `[0, 1]`; the constructor only clamps from above. -/
theorem c8_cex : ¬ (0 ≤ metalNewFuzz (-1) ∧ metalNewFuzz (-1) ≤ 1) := by
  norm_num [metalNewFuzz]

/-- C8, amended: the fuzz stored by `Metal::new` is at most `1`: inputs
below `1` are stored unchanged (including negative ones), larger inputs are
clamped to `1`.  The lower bound `0` of the claim is not enforced. -/
theorem c8_metal_fuzz (f : ℚ) :
    metalNewFuzz f ≤ 1 ∧ (f < 1 → metalNewFuzz f = f) ∧ (1 ≤ f → metalNewFuzz f = 1) := by
  unfold metalNewFuzz
  split_ifs with h
  · exact ⟨le_of_lt h, fun _ => rfl, fun h1 => absurd h (not_lt.mpr h1)⟩
  · exact ⟨le_refl 1, fun h1 => absurd h1 h, fun _ => rfl⟩

/-- C8, witness. -/
theorem c8_witness :
    metalNewFuzz (1 / 2) = 1 / 2 ∧ metalNewFuzz 3 = 1 ∧ metalNewFuzz 3 ≤ 1 :=
  ⟨(c8_metal_fuzz (1 / 2)).2.1 (by norm_num),
   (c8_metal_fuzz 3).2.2 (by norm_num),
   (c8_metal_fuzz 3).1⟩

/-! ## C4: Mix delegation -/

/-- C4, counterexample: with ratio `1` every call should delegate to the
left material, whose `normal` returns a tangent-space normal; but
`impl Material for Mix` does not override `normal`, so the trait default
`None` is returned instead of `left.normal(uv)`. -/
theorem c4_cex :
    mixNormal 1 matLeftNormal matAbsorb ⟨0, 0⟩ ≠ matLeftNormal.normalMap ⟨0, 0⟩ := by
  simp [mixNormal, matLeftNormal]

/-- C4, amended: `Mix`'s `scatter`, `emit` and `alpha_test` each draw a
fresh uniform `u` and delegate to the left material when `u < ratio`, and
to the right otherwise; `normal` is not overridden and always returns
`None`. -/
theorem c4_mix (rv u : ℚ) (L R : MaterialQ) (r : RayQ) (h : HitRec) (uv : V2Q) :
    (u < rv →
      mixScatter rv L R u r h = L.scatter r h ∧
      mixEmit rv L R u h = L.emit h ∧
      mixAlphaTest rv L R u uv = L.alphaTest uv) ∧
    (¬ u < rv →
      mixScatter rv L R u r h = R.scatter r h ∧
      mixEmit rv L R u h = R.emit h ∧
      mixAlphaTest rv L R u uv = R.alphaTest uv) ∧
    mixNormal rv L R uv = none := by
  refine ⟨fun hu => ?_, fun hu => ?_, rfl⟩
  · simp [mixScatter, mixEmit, mixAlphaTest, hu]
  · simp [mixScatter, mixEmit, mixAlphaTest, hu]

/-- C4, witness. -/
theorem c4_witness :
    mixEmit 1 matLeftNormal matAbsorb 0 hitAtOrigin = matLeftNormal.emit hitAtOrigin ∧
    mixAlphaTest 0 matLeftNormal matAbsorb 0 ⟨0, 0⟩ = matAbsorb.alphaTest ⟨0, 0⟩ ∧
    mixNormal (1 / 2) matLeftNormal matAbsorb ⟨0, 0⟩ = none :=
  ⟨((c4_mix 1 0 matLeftNormal matAbsorb volRay hitAtOrigin ⟨0, 0⟩).1 (by norm_num)).2.1,
   ((c4_mix 0 0 matLeftNormal matAbsorb volRay hitAtOrigin ⟨0, 0⟩).2.1 (by norm_num)).2.2,
   (c4_mix (1 / 2) 0 matLeftNormal matAbsorb volRay hitAtOrigin ⟨0, 0⟩).2.2⟩

/-! ## C9: BVH construction from an empty collection -/

/-- C9, counterexample: under the fuelled semantics, `BvhNode::new` on an
empty vector exhausts any amount of fuel; it never reaches the
`unreachable!("Missing bounding box in bvh")` panic. -/
theorem c9_cex :
    buildF 3 (fun _ => 0) 0 [] ≠ BuildRes.panicked ∧
    buildF 3 (fun _ => 0) 0 [] = BuildRes.outOfFuel := by
  constructor
  · intro hh
    rw [show buildF 3 (fun _ => 0) 0 [] = BuildRes.outOfFuel from rfl] at hh
    exact BuildRes.noConfusion hh
  · rfl

/-- C9, amended: `BvhNode::new` applied to an empty vector recurses on two
empty halves forever (for every fuel bound the fuelled model runs out of
fuel): the construction never returns and never reaches the `unreachable!`
branch, so `World::build_bvh` on an empty world diverges (in practice a
stack overflow) rather than panicking at the `unreachable!`. -/
theorem c9_empty_build (fuel : ℕ) (s : ℕ → Fin 3) (i : ℕ) :
    buildF fuel s i [] = BuildRes.outOfFuel :=
  build_nil fuel s i

/-! ## C10: zero-sample display -/

/-- C10: in the Default, Denoise and Depth display modes with a zero sample
count, `Image::to_rgb_bytes` returns `3·width·height` zero bytes and never
divides by the zero count. -/
theorem c10_zero_samples (pf : ℚ → ℚ → ℚ) (dn : List ℚ → List ℚ)
    (ab nb : Option (List ℚ)) (pix : List (V3Q × ℕ)) (w h : ℕ)
    (mode : DisplayMode) (hl : pix.length = w * h)
    (hm : mode = DisplayMode.defaultMode ∨ mode = DisplayMode.denoiseMode ∨
      mode = DisplayMode.depthMode) :
    toRgbBytes pf dn ab nb 0 pix mode = List.replicate (3 * (w * h)) 0 := by
  have hz := zeros_bytes (w * h)
  rcases hm with hm | hm | hm <;> subst hm <;>
    simp only [toRgbBytes, if_pos, and_true, or_true, true_or, or_self, if_true,
      eq_self_iff_true, hl] <;>
    first
      | exact hz
      | (rw [if_pos]; · exact hz; · simp)

/-- C10, witness. -/
theorem c10_witness :
    toRgbBytes (fun a _ => a) id none none 0
      [(V3Q.mk3 9 9 9, 4), (V3Q.mk3 1 1 1, 2)] DisplayMode.depthMode =
      List.replicate (3 * (2 * 1)) 0 :=
  c10_zero_samples (fun a _ => a) id none none
    [(V3Q.mk3 9 9 9, 4), (V3Q.mk3 1 1 1, 2)] 2 1 DisplayMode.depthMode rfl
    (Or.inr (Or.inr rfl))

/-! ## C2: the recursion of `Camera::trace` -/

/-- C2: `Camera::trace` returns black and 0 at depth 0; the background and
the unchanged depth on a miss over `(0.001, +∞)`; and otherwise the
emission, plus the attenuated recursive radiance at depth−1 when the
material scatters. -/
theorem c2_trace (S : TraceScene) (r : RayQ) (d : ℕ) :
    trace S r 0 = (V3Q.zero, 0) ∧
    (S.intersect r (ERat.fin (1 / 1000)) ERat.pinf = none →
      trace S r (d + 1) = (S.background r, d + 1)) ∧
    (∀ hh : THit, S.intersect r (ERat.fin (1 / 1000)) ERat.pinf = some hh →
      (hh.scatterF r = none → trace S r (d + 1) = (hh.emitV, d + 1)) ∧
      (∀ sc : ScatterQ, hh.scatterF r = some sc →
        trace S r (d + 1) =
          (((trace S sc.scattered d).1.cmul sc.attenuation).add hh.emitV,
            (trace S sc.scattered d).2))) := by
  refine ⟨rfl, fun hm => ?_, fun hh hint => ⟨fun hs => ?_, fun sc hs => ?_⟩⟩
  · simp only [trace]; rw [hm]
  · simp only [trace]; rw [hint]; simp only []; rw [hs]
  · simp only [trace]; rw [hint]; simp only []; rw [hs]

/-- C2, witness: the three branches of `trace` evaluated on a concrete
scene (a scattering hit from `x = 0`, an absorbing emitter from `x = 1`,
and a miss elsewhere). -/
theorem c2_witness :
    trace traceSceneW ⟨V3Q.mk3 2 0 0, V3Q.mk3 1 0 0⟩ 3 = (V3Q.mk3 7 8 9, 3) ∧
    trace traceSceneW ⟨V3Q.mk3 1 0 0, V3Q.mk3 1 0 0⟩ 3 = (V3Q.mk3 3 3 3, 3) ∧
    trace traceSceneW ⟨V3Q.mk3 0 0 0, V3Q.mk3 1 0 0⟩ 1 =
      ((V3Q.zero.cmul (V3Q.mk3 2 2 2)).add (V3Q.mk3 1 1 0), 0) := by
  refine ⟨?_, ?_, ?_⟩
  · have h := (c2_trace traceSceneW ⟨V3Q.mk3 2 0 0, V3Q.mk3 1 0 0⟩ 2).2.1
      (by norm_num [traceSceneW, V3Q.mk3])
    simpa [traceSceneW] using h
  · have h := ((c2_trace traceSceneW ⟨V3Q.mk3 1 0 0, V3Q.mk3 1 0 0⟩ 2).2.2
      ⟨V3Q.mk3 3 3 3, fun _ => none⟩ (by norm_num [traceSceneW, V3Q.mk3])).1 rfl
    simpa using h
  · have h := ((c2_trace traceSceneW ⟨V3Q.mk3 0 0 0, V3Q.mk3 1 0 0⟩ 0).2.2
      ⟨V3Q.mk3 1 1 0, fun _ => some ⟨V3Q.mk3 2 2 2, ⟨V3Q.mk3 5 0 0, V3Q.mk3 0 1 0⟩⟩⟩
      (by norm_num [traceSceneW, V3Q.mk3])).2
      ⟨V3Q.mk3 2 2 2, ⟨V3Q.mk3 5 0 0, V3Q.mk3 0 1 0⟩⟩ rfl
    simpa [trace] using h

/-! ## C5: a Volume of density zero never hits -/

/-- C5: a `Volume` built with density `0` stores `-1/0 = -∞`; since the
uniform draw is in `[0, 1)` its logarithm `lnu` is negative (or `-∞`), the
sampled distance `lnu · (-∞) = +∞` exceeds every finite distance inside
the boundary, and `Volume::intersect` returns `None` for every ray and
window (rays that miss the boundary already return `None` earlier). -/
theorem c5_volume_density_zero (target : RayQ → ERat → ERat → Option HitRec)
    (lnu : ERat) (r : RayQ) (tmin tmax : ERat)
    (hl : ERat.blt lnu (ERat.fin 0) = true) :
    (VolumeQ.new target 0).intersect lnu r tmin tmax = none := by
  have hnid : ERat.dq (-1) 0 = ERat.ninf := by norm_num [ERat.dq]
  have hd : ERat.mul lnu (ERat.dq (-1) 0) = ERat.pinf := by
    rw [hnid]; exact mul_ninf_of_neg lnu hl
  simp only [VolumeQ.intersect, VolumeQ.new]
  cases h1 : target r ERat.ninf ERat.pinf with
  | none => rfl
  | some hitEnter =>
    dsimp only
    cases h2 : target r (ERat.fin (hitEnter.t + 1 / 10000)) ERat.pinf with
    | none => rfl
    | some hitExit =>
      dsimp only
      rcases clampHigh_shape hitExit.t tmax with ⟨b, hb⟩ | hb <;>
        rcases clampLow_shape hitEnter.t tmin with ⟨a, ha⟩ | ha <;>
        simp only [ha, hb, hd]
      · by_cases hg : ERat.ble (ERat.fin b) (ERat.fin a) = true
        · simp [hg]
        · rw [if_neg hg]
          by_cases hz : a < 0
          · simp [hz, ERat.esub, ERat.mul, ERat.blt]
          · simp [hz, ERat.esub, ERat.mul, ERat.blt]
      · simp [ERat.ble]
      · simp [ERat.ble]
      · simp [ERat.ble]

/-- C5, witness: the zero-density volume around the unit sphere misses for
a ray that does enter the boundary. -/
theorem c5_witness :
    (VolumeQ.new sphereUnit.intersect 0).intersect (ERat.fin (-1)) volRay
      (ERat.fin (1 / 1000)) ERat.pinf = none :=
  c5_volume_density_zero sphereUnit.intersect (ERat.fin (-1)) volRay
    (ERat.fin (1 / 1000)) ERat.pinf (by norm_num [ERat.blt])

/-! ## C3: the face-normal invariant -/

/-- C3, counterexample: a `Volume` hit (density 2 around the unit sphere,
uniform draw with `ln u = -1`, ray entering along `+x`) has
`front_face = true` but its stored normal `(1,0,0)` does not oppose the
ray direction: the dot product is `1 ≥ 0`. -/
theorem c3_cex :
    (VolumeQ.new sphereUnit.intersect 2).intersect (ERat.fin (-1)) volRay
        (ERat.fin (1 / 1000)) ERat.pinf =
      some ⟨V3Q.mk3 (-(1 / 2)) 0 0, V3Q.mk3 1 0 0, none, 19 / 2, true⟩ ∧
    ¬ (V3Q.mk3 1 0 0).dot volRay.direction < 0 := by
  constructor
  · norm_num [VolumeQ.intersect, VolumeQ.new, sphereUnit, volRay, SphereQ.intersect,
      V3Q.lengthSquared, V3Q.dot, V3Q.sub, V3Q.add, V3Q.smul, V3Q.sdiv, V3Q.mk3,
      V3Q.zero, V3Q.length, RayQ.atQ, ERat.blt, ERat.ble, ERat.dq, ERat.esub,
      ERat.eadd, ERat.edivq, ERat.mul, Rat.sqrt, HitRec.setFaceNormal, V3Q.neg,
      V3Q.fill]
  · norm_num [V3Q.dot, V3Q.mk3, volRay]

/-- C3, amended: hits built through `Hit::set_face_normal` — those of
`Sphere::intersect` and `Triangle::intersect` — satisfy the invariant:
`front_face` is exactly "the geometric outward normal opposes the ray
direction", and the stored normal is that outward normal, or its negation
when `front_face` is false.  `Volume::intersect` does not use
`set_face_normal`: its hits always carry `front_face = true` and the fixed
normal `(1,0,0)`, regardless of the ray. -/
theorem c3_face_invariant :
    (∀ (s : SphereQ) (r : RayQ) (tmin tmax : ERat) (h : HitRec),
      s.intersect r tmin tmax = some h → FaceOk r h) ∧
    (∀ (tr : TriangleQ) (r : RayQ) (tmin tmax : ERat) (h : HitRec),
      tr.intersect r tmin tmax = some h → FaceOk r h) ∧
    (∀ (v : VolumeQ) (lnu : ERat) (r : RayQ) (tmin tmax : ERat) (h : HitRec),
      v.intersect lnu r tmin tmax = some h →
        h.frontFace = true ∧ h.normal = V3Q.mk3 1 0 0) := by
  refine ⟨?_, ?_, ?_⟩
  · intro s r tmin tmax h heq
    simp only [SphereQ.intersect] at heq
    split at heq
    · exact Option.noConfusion heq
    · rcases Option.map_eq_some'.mp heq with ⟨root, _, hfh⟩
      rw [← hfh]
      exact faceOk_set _ _ _
  · intro tr r tmin tmax h heq
    simp only [TriangleQ.intersect] at heq
    split at heq
    · exact Option.noConfusion heq
    split at heq
    · exact Option.noConfusion heq
    split at heq
    · exact Option.noConfusion heq
    split at heq
    · exact Option.noConfusion heq
    cases huv : tr.uvs with
    | none =>
      simp only [huv] at heq
      rw [← Option.some.inj heq]
      exact faceOk_set _ _ _
    | some uv3 =>
      simp only [huv] at heq
      rw [ite_some_none _ _ _ heq]
      exact faceOk_set _ _ _
  · intro v lnu r tmin tmax h heq
    simp only [VolumeQ.intersect] at heq
    repeat' split at heq
    all_goals
      first
        | exact Option.noConfusion heq
        | (rw [← Option.some.inj heq]; exact ⟨rfl, rfl⟩)

/-- C3, witness: a concrete sphere hit satisfying the invariant. -/
theorem c3_witness :
    FaceOk volRay ⟨V3Q.mk3 (-1) 0 0, V3Q.mk3 (-1) 0 0, none, 9, true⟩ :=
  (c3_face_invariant).1 sphereUnit volRay (ERat.fin (1 / 1000)) ERat.pinf
    ⟨V3Q.mk3 (-1) 0 0, V3Q.mk3 (-1) 0 0, none, 9, true⟩
    (by norm_num [SphereQ.intersect, sphereUnit, volRay, V3Q.lengthSquared, V3Q.dot,
      V3Q.sub, V3Q.add, V3Q.smul, V3Q.sdiv, V3Q.mk3, V3Q.zero, RayQ.atQ, ERat.blt,
      Rat.sqrt, HitRec.setFaceNormal, V3Q.neg, V3Q.fill])

/-! ## C6: box algebra and the inside slab test -/

/-- C6: `BoundingBox::join` is idempotent and commutative on well-formed
boxes, and the slab test accepts every ray whose origin lies strictly
inside the box, for every direction and every window `t_min < 0 < t_max`. -/
theorem c6_box (a b : BoxQ) (ha : a.wfQ) (hb : b.wfQ) :
    a.join a = a ∧ a.join b = b.join a ∧
    (∀ (r : RayQ) (q1 q2 : ℚ), BoxQ.insideStrict r.origin a → q1 < 0 → 0 < q2 →
      a.hit r (ERat.fin q1) (ERat.fin q2) = true) := by
  refine ⟨?_, ?_, ?_⟩
  · rcases a with ⟨⟨ax, ay, az⟩, ⟨bx0, by0, bz0⟩⟩
    simp [BoxQ.join, V3Q.vmin, V3Q.vmax]
  · rcases a with ⟨⟨ax, ay, az⟩, ⟨bx0, by0, bz0⟩⟩
    rcases b with ⟨⟨cx, cy, cz⟩, ⟨dx, dy, dz⟩⟩
    simp [BoxQ.join, V3Q.vmin, V3Q.vmax, min_comm, max_comm]
  · intro r q1 q2 hin hneg hpos
    obtain ⟨hx1, hx2, hy1, hy2, hz1, hz2⟩ := hin
    obtain ⟨a1, b1, ea1, eb1, ha1, hb1⟩ :=
      slab_axis a.minimum.x a.maximum.x r.origin.x r.direction.x q1 q2
        (by linarith) (by linarith) hneg hpos
    obtain ⟨a2, b2, ea2, eb2, ha2, hb2⟩ :=
      slab_axis a.minimum.y a.maximum.y r.origin.y r.direction.y a1 b1
        (by linarith) (by linarith) ha1 hb1
    obtain ⟨a3, b3, ea3, eb3, ha3, hb3⟩ :=
      slab_axis a.minimum.z a.maximum.z r.origin.z r.direction.z a2 b2
        (by linarith) (by linarith) ha2 hb2
    simp only [BoxQ.hit]
    rw [ea1, eb1]
    rw [if_neg (by simp [ERat.blt]; linarith)]
    rw [ea2, eb2]
    rw [if_neg (by simp [ERat.blt]; linarith)]
    rw [ea3, eb3]
    rw [if_neg (by simp [ERat.blt]; linarith)]

/-- C6, witness. -/
theorem c6_witness :
    BoxQ.join ⟨V3Q.zero, V3Q.fill 2⟩ ⟨V3Q.zero, V3Q.fill 2⟩ = ⟨V3Q.zero, V3Q.fill 2⟩ ∧
    (⟨V3Q.zero, V3Q.fill 2⟩ : BoxQ).hit ⟨V3Q.fill 1, V3Q.mk3 1 0 0⟩
      (ERat.fin (-1)) (ERat.fin 1) = true := by
  have h := c6_box ⟨V3Q.zero, V3Q.fill 2⟩ ⟨V3Q.zero, V3Q.fill 2⟩
    (by norm_num [BoxQ.wfQ, V3Q.zero, V3Q.fill])
    (by norm_num [BoxQ.wfQ, V3Q.zero, V3Q.fill])
  exact ⟨h.1, h.2.2 ⟨V3Q.fill 1, V3Q.mk3 1 0 0⟩ (-1) 1
    (by norm_num [BoxQ.insideStrict, V3Q.zero, V3Q.fill]) (by norm_num) (by norm_num)⟩

end Mass
